import Mathlib

/-!
Verification of the todo application in `src/todo_frontend/src/App.js`.

The component keeps four pieces of reactive state: the todo list `todos`,
the add-form text `input`, and the edit session `editId` / `editValue`.
The list operations are embedded below as pure functions over `List Todo`,
and the whole component as a step function over `AppState`.  `Date.now()`
is an external effect; it is passed as an explicit `now : Nat` argument to
the add operation.
-/

/-- JS `String.prototype.trim` on the underlying character list: removes
leading and trailing whitespace. -/
def jsTrimList (l : List Char) : List Char :=
  ((l.dropWhile Char.isWhitespace).reverse.dropWhile Char.isWhitespace).reverse

/-- Embedding of JS `s.trim()` as called in `App.js` lines 33 and 78. -/
def jsTrim (s : String) : String :=
  ⟨jsTrimList s.data⟩

/-- A todo record as built in `handleAddTodo` (`App.js` lines 37-41). -/
structure Todo where
  id : Nat
  title : String
  completed : Bool
deriving DecidableEq, Repr

/-- Effect of `handleAddTodo` (`App.js` lines 31-45) on the `todos` state:
trim the input, return early if the result is empty, otherwise append
`{ id: Date.now(), title, completed: false }`.  The `Date.now()` value is
the explicit argument `now`. -/
def addTodo (todos : List Todo) (now : Nat) (input : String) : List Todo :=
  let title := jsTrim input
  if title = "" then todos
  else todos ++ [⟨now, title, false⟩]

/-- `toggleTodo` (`App.js` lines 52-58): map every record whose id matches
to a copy with `completed` negated. -/
def toggleTodo (todos : List Todo) (id : Nat) : List Todo :=
  todos.map fun todo =>
    if todo.id = id then ⟨todo.id, todo.title, !todo.completed⟩ else todo

/-- Effect of `handleEditSave` (`App.js` lines 76-87) on the `todos` state:
trim `editValue`, return early if empty, otherwise map every record whose
id equals `editId` (which is `null` = `none` or a number) to a copy with
the trimmed new title. -/
def editSaveTodos (todos : List Todo) (editId : Option Nat) (editValue : String) :
    List Todo :=
  let newTitle := jsTrim editValue
  if newTitle = "" then todos
  else todos.map fun todo =>
    if some todo.id = editId then ⟨todo.id, newTitle, todo.completed⟩ else todo

/-- `deleteTodo` (`App.js` lines 103-105): `todos.filter(todo => todo.id !== id)`. -/
def deleteTodo (todos : List Todo) (id : Nat) : List Todo :=
  todos.filter fun todo => todo.id != id

/-- The reactive state of the `App` component (`App.js` lines 12-15). -/
structure AppState where
  todos : List Todo
  input : String
  editId : Option Nat
  editValue : String
deriving DecidableEq, Repr

/-- Initial state: `useState([])`, `useState('')`, `useState(null)`,
`useState('')` (`App.js` lines 12-15). -/
def initState : AppState := ⟨[], "", none, ""⟩

/-- User events the rendered page dispatches into the handlers of `App.js`.
`addSubmit` carries the value `Date.now()` returns during that call. -/
inductive Event where
  | inputChange (s : String)
  | addSubmit (now : Nat)
  | toggle (id : Nat)
  | startEdit (id : Nat) (title : String)
  | editChange (s : String)
  | editSave
  | editCancel
  | deleteEv (id : Nat)
deriving DecidableEq, Repr

/-- One synchronous event dispatch.  `addSubmit` runs `handleAddTodo`
(which also clears `input`), `editSave` runs `handleEditSave`: its early
return on empty trimmed text leaves the whole state, including the edit
session, untouched; on success it clears `editId` and `editValue`.
`startEdit` and `cancelEdit` are `App.js` lines 66-69 and 93-96. -/
def step (st : AppState) : Event → AppState
  | .inputChange s => { st with input := s }
  | .addSubmit now =>
      let title := jsTrim st.input
      if title = "" then st
      else { st with todos := st.todos ++ [⟨now, title, false⟩], input := "" }
  | .toggle id => { st with todos := toggleTodo st.todos id }
  | .startEdit id title => { st with editId := some id, editValue := title }
  | .editChange s => { st with editValue := s }
  | .editSave =>
      let newTitle := jsTrim st.editValue
      if newTitle = "" then st
      else { st with
              todos := st.todos.map fun todo =>
                if some todo.id = st.editId then ⟨todo.id, newTitle, todo.completed⟩
                else todo,
              editId := none,
              editValue := "" }
  | .editCancel => { st with editId := none, editValue := "" }
  | .deleteEv id => { st with todos := deleteTodo st.todos id }

/-- Which events the rendered page can actually dispatch in state `st`:
both text inputs carry `maxLength={80}` (`App.js` lines 128 and 173), so a
change event never carries more than 80 characters, and `startEdit` is
always invoked as `startEdit(todo.id, todo.title)` for a rendered todo
(`App.js` lines 187 and 200). -/
def okEvent (st : AppState) : Event → Prop
  | .inputChange s => s.length ≤ 80
  | .editChange s => s.length ≤ 80
  | .startEdit id title => ∃ t, t ∈ st.todos ∧ t.id = id ∧ t.title = title
  | _ => True

/-- States reachable from `initState` by page-dispatchable events. -/
inductive Reachable : AppState → Prop where
  | init : Reachable initState
  | next (st : AppState) (e : Event) : Reachable st → okEvent st e →
      Reachable (step st e)

/-- Folding `addTodo` over a list of `(Date.now value, raw title)` calls. -/
def addAll (todos : List Todo) (calls : List (Nat × String)) : List Todo :=
  calls.foldl (fun acc c => addTodo acc c.1 c.2) todos

/-! ### Helper lemmas -/

lemma jsTrim_length_le (s : String) : (jsTrim s).length ≤ s.length := by
  show (jsTrimList s.data).length ≤ s.data.length
  unfold jsTrimList
  rw [List.length_reverse]
  refine le_trans (List.dropWhile_sublist _).length_le ?_
  rw [List.length_reverse]
  exact (List.dropWhile_sublist _).length_le

lemma addTodo_of_ne (s : List Todo) (now : Nat) (raw : String)
    (h : jsTrim raw ≠ "") :
    addTodo s now raw = s ++ [⟨now, jsTrim raw, false⟩] := by
  simp [addTodo, h]

lemma addAll_eq_append (calls : List (Nat × String)) (s : List Todo)
    (h : ∀ c ∈ calls, jsTrim c.2 ≠ "") :
    addAll s calls = s ++ calls.map (fun c => ⟨c.1, jsTrim c.2, false⟩) := by
  induction calls generalizing s with
  | nil => simp [addAll]
  | cons c cs ih =>
      have h1 : jsTrim c.2 ≠ "" := h c (List.mem_cons_self ..)
      have h2 : ∀ x ∈ cs, jsTrim x.2 ≠ "" := fun x hx => h x (List.mem_cons_of_mem _ hx)
      have hstep : addAll s (c :: cs) = addAll (addTodo s c.1 c.2) cs := rfl
      rw [hstep, addTodo_of_ne _ _ _ h1, ih _ h2, List.map_cons, List.append_assoc]
      rfl

lemma editSaveTodos_of_ne (s : List Todo) (eid : Option Nat) (raw : String)
    (h : jsTrim raw ≠ "") :
    editSaveTodos s eid raw =
      s.map (fun todo =>
        if some todo.id = eid then ⟨todo.id, jsTrim raw, todo.completed⟩ else todo) := by
  simp [editSaveTodos, h]

lemma nodup_ids_get_ne (s : List Todo) (hnd : (s.map Todo.id).Nodup) {i j : Nat}
    (hi : i < s.length) (hj : j < s.length) (hij : i ≠ j) :
    (s.get ⟨i, hi⟩).id ≠ (s.get ⟨j, hj⟩).id := by
  intro heq
  have hi2 : i < (s.map Todo.id).length := by simpa using hi
  have hj2 : j < (s.map Todo.id).length := by simpa using hj
  have hmap : (s.map Todo.id).get ⟨i, hi2⟩ = (s.map Todo.id).get ⟨j, hj2⟩ := by
    simpa [List.get_eq_getElem, List.getElem_map] using heq
  have := hnd.get_inj_iff.mp hmap
  exact hij (by simpa using congrArg Fin.val this)

lemma nodup_split_ne (l1 l2 : List Todo) (a : Todo)
    (hnd : ((l1 ++ a :: l2).map Todo.id).Nodup) :
    (∀ x ∈ l1, x.id ≠ a.id) ∧ ∀ x ∈ l2, x.id ≠ a.id := by
  rw [List.map_append, List.map_cons, List.nodup_append] at hnd
  obtain ⟨_, hcons, hdisj⟩ := hnd
  constructor
  · intro x hx heq
    exact hdisj (List.mem_map_of_mem Todo.id hx) (by simp [heq])
  · intro x hx heq
    exact (List.nodup_cons.mp hcons).1 (heq ▸ List.mem_map_of_mem Todo.id hx)

/-! ### Claims -/

/-- Claim C1: for every raw input whose trimmed form is non-empty, `add`
appends exactly one new todo at the end, with the trimmed title,
`completed = false`, and the freshly generated id (the `Date.now` value);
consequently any sequence of such `add` calls from the empty store yields
a store whose length is the number of calls and whose titles appear in
call order. -/
theorem add_appends_and_accumulates (s : List Todo) (now : Nat) (raw : String)
    (calls : List (Nat × String)) :
    (jsTrim raw ≠ "" → addTodo s now raw = s ++ [⟨now, jsTrim raw, false⟩]) ∧
    ((∀ c ∈ calls, jsTrim c.2 ≠ "") →
      (addAll [] calls).length = calls.length ∧
      (addAll [] calls).map Todo.title = calls.map (fun c => jsTrim c.2) ∧
      ∀ t ∈ addAll [] calls, t.completed = false) := by
  refine ⟨addTodo_of_ne s now raw, fun h => ?_⟩
  rw [addAll_eq_append calls [] h]
  refine ⟨by simp, by simp [List.map_map, Function.comp], ?_⟩
  intro t ht
  simp only [List.nil_append, List.mem_map] at ht
  obtain ⟨c, _, rfl⟩ := ht
  rfl

theorem add_appends_witness :
    addTodo [] 5 " Buy milk " = [] ++ [⟨5, jsTrim " Buy milk ", false⟩] ∧
    (addAll [] [(1, "A"), (2, "B")]).length = 2 :=
  ⟨(add_appends_and_accumulates [] 5 " Buy milk " []).1 (by decide),
   ((add_appends_and_accumulates [] 5 "x" [(1, "A"), (2, "B")]).2 (by decide)).1⟩

/-- Claim C8: `add` with a raw string whose trimmed form is empty, and
`edit` with any `editId` and a raw string whose trimmed form is empty, are
silent no-ops on the store. -/
theorem empty_trim_noop (s : List Todo) (now : Nat) (raw : String)
    (eid : Option Nat) (h : jsTrim raw = "") :
    addTodo s now raw = s ∧ editSaveTodos s eid raw = s := by
  simp [addTodo, editSaveTodos, h]

theorem empty_trim_noop_witness :
    addTodo [⟨1, "A", false⟩] 7 "   " = [⟨1, "A", false⟩] ∧
    editSaveTodos [⟨1, "A", false⟩] (some 1) "   " = [⟨1, "A", false⟩] :=
  empty_trim_noop [⟨1, "A", false⟩] 7 "   " (some 1) (by decide)

/-- Claim C9: toggle, edit and delete with an id not stored in the list
leave the store entirely unchanged; all three are total functions, so no
error can be raised. -/
theorem missing_id_noop (s : List Todo) (id : Nat) (raw : String)
    (h : id ∉ s.map Todo.id) :
    toggleTodo s id = s ∧ editSaveTodos s (some id) raw = s ∧
      deleteTodo s id = s := by
  have key : ∀ a ∈ s, a.id ≠ id := fun a ha heq =>
    h (heq ▸ List.mem_map_of_mem Todo.id ha)
  refine ⟨?_, ?_, ?_⟩
  · rw [toggleTodo]
    conv_rhs => rw [← List.map_id s]
    exact List.map_congr_left fun a ha => by simp [key a ha]
  · by_cases htrim : jsTrim raw = ""
    · simp [editSaveTodos, htrim]
    · rw [editSaveTodos_of_ne _ _ _ htrim]
      conv_rhs => rw [← List.map_id s]
      exact List.map_congr_left fun a ha => by simp [key a ha]
  · rw [deleteTodo]
    exact List.filter_eq_self.mpr fun a ha => by simp [key a ha]

theorem missing_id_noop_witness :
    toggleTodo [⟨1, "A", false⟩] 2 = [⟨1, "A", false⟩] ∧
    editSaveTodos [⟨1, "A", false⟩] (some 2) "B" = [⟨1, "A", false⟩] ∧
    deleteTodo [⟨1, "A", false⟩] 2 = [⟨1, "A", false⟩] :=
  missing_id_noop [⟨1, "A", false⟩] 2 "B" (by decide)

lemma delete_length_countP (s : List Todo) (id : Nat) :
    (deleteTodo s id).length + List.countP (fun t => t.id == id) s = s.length := by
  simp only [deleteTodo]
  induction s with
  | nil => rfl
  | cons a l ih =>
      rw [List.filter_cons, List.countP_cons]
      by_cases h : a.id = id
      · have h1 : (a.id != id) = false := by simp [h]
        have h2 : (a.id == id) = true := by simp [h]
        simp [h1, h2]
        omega
      · have h1 : (a.id != id) = true := by simp [h]
        have h2 : (a.id == id) = false := by simp [h]
        simp [h1, h2]
        omega

/-- Claim C10: `deleteTodo` removes every record whose id matches, not just
the first (the count of matching records is exactly the length drop and no
matching record survives), and `toggleTodo` flips the completed flag of
every record whose id matches. -/
theorem delete_toggle_all_matching (s : List Todo) (id : Nat) :
    (∀ x ∈ deleteTodo s id, x.id ≠ id) ∧
    ((deleteTodo s id).length + List.countP (fun t => t.id == id) s = s.length) ∧
    ∀ i, (hi : i < s.length) → (s.get ⟨i, hi⟩).id = id →
      (toggleTodo s id)[i]? =
        some ⟨id, (s.get ⟨i, hi⟩).title, !(s.get ⟨i, hi⟩).completed⟩ := by
  refine ⟨?_, delete_length_countP s id, ?_⟩
  · intro x hx
    have := (List.mem_filter.mp hx).2
    simpa [bne_iff_ne] using this
  · intro i hi hmatch
    have hm2 : s[i].id = id := hmatch
    rw [toggleTodo, List.getElem?_map, List.getElem?_eq_getElem hi]
    have hval : (if s[i].id = id then
        (⟨s[i].id, s[i].title, !s[i].completed⟩ : Todo) else s[i]) =
        ⟨id, s[i].title, !s[i].completed⟩ := by rw [if_pos hm2, hm2]
    exact congrArg some hval

theorem delete_toggle_all_matching_witness :
    deleteTodo [⟨5, "a", false⟩, ⟨5, "b", true⟩] 5 = [] ∧
    (toggleTodo [⟨5, "a", false⟩, ⟨5, "b", true⟩] 5)[0]? = some ⟨5, "a", true⟩ ∧
    (toggleTodo [⟨5, "a", false⟩, ⟨5, "b", true⟩] 5)[1]? = some ⟨5, "b", false⟩ := by
  have h := delete_toggle_all_matching [⟨5, "a", false⟩, ⟨5, "b", true⟩] 5
  exact ⟨by decide, h.2.2 0 (by decide) (by decide), h.2.2 1 (by decide) (by decide)⟩

/-- Claim C2: toggling the id of the record at position `i` of a store
with pairwise distinct ids flips exactly that record's completed flag,
keeps its id and title, and leaves every other position (hence the order
and the length) unchanged. -/
theorem toggle_flips_exactly_target (s : List Todo) (i : Nat) (hi : i < s.length)
    (hnd : (s.map Todo.id).Nodup) :
    (toggleTodo s ((s.get ⟨i, hi⟩).id)).length = s.length ∧
    (toggleTodo s ((s.get ⟨i, hi⟩).id))[i]? =
      some ⟨(s.get ⟨i, hi⟩).id, (s.get ⟨i, hi⟩).title, !(s.get ⟨i, hi⟩).completed⟩ ∧
    ∀ j, j ≠ i → (toggleTodo s ((s.get ⟨i, hi⟩).id))[j]? = s[j]? := by
  refine ⟨by simp [toggleTodo], ?_, ?_⟩
  · have hm : s[i] = s.get ⟨i, hi⟩ := (List.get_eq_getElem s ⟨i, hi⟩).symm
    rw [toggleTodo, List.getElem?_map, List.getElem?_eq_getElem hi]
    have hval : (if s[i].id = (s.get ⟨i, hi⟩).id then
        (⟨s[i].id, s[i].title, !s[i].completed⟩ : Todo) else s[i]) =
        ⟨(s.get ⟨i, hi⟩).id, (s.get ⟨i, hi⟩).title, !(s.get ⟨i, hi⟩).completed⟩ := by
      rw [if_pos (by rw [hm]), hm]
    exact congrArg some hval
  · intro j hj
    rw [toggleTodo, List.getElem?_map]
    by_cases hjl : j < s.length
    · rw [List.getElem?_eq_getElem hjl]
      have hne : (s.get ⟨j, hjl⟩).id ≠ (s.get ⟨i, hi⟩).id :=
        nodup_ids_get_ne s hnd hjl hi hj
      have hm : s[j] = s.get ⟨j, hjl⟩ := (List.get_eq_getElem s ⟨j, hjl⟩).symm
      have hval : (if s[j].id = (s.get ⟨i, hi⟩).id then
          (⟨s[j].id, s[j].title, !s[j].completed⟩ : Todo) else s[j]) = s[j] := by
        rw [if_neg (by rw [hm]; exact hne)]
      exact congrArg some hval
    · rw [List.getElem?_eq_none (Nat.le_of_not_lt hjl)]
      rfl

theorem toggle_flips_witness :
    (toggleTodo [⟨1, "a", false⟩, ⟨2, "b", true⟩] 1).length = 2 ∧
    (toggleTodo [⟨1, "a", false⟩, ⟨2, "b", true⟩] 1)[0]? = some ⟨1, "a", true⟩ ∧
    (toggleTodo [⟨1, "a", false⟩, ⟨2, "b", true⟩] 1)[1]? = some ⟨2, "b", true⟩ := by
  have h := toggle_flips_exactly_target [⟨1, "a", false⟩, ⟨2, "b", true⟩] 0
    (by decide) (by decide)
  exact ⟨h.1, h.2.1, h.2.2 1 (by decide)⟩

/-- Claim C3: editing the record at position `i` of a store with pairwise
distinct ids, with a raw string whose trimmed form is non-empty, replaces
exactly that record's title by the trimmed string, keeps its id, completed
flag and position, and leaves every other position unchanged. -/
theorem edit_replaces_title_in_place (s : List Todo) (i : Nat) (hi : i < s.length)
    (raw : String) (hnd : (s.map Todo.id).Nodup) (hraw : jsTrim raw ≠ "") :
    (editSaveTodos s (some ((s.get ⟨i, hi⟩).id)) raw).length = s.length ∧
    (editSaveTodos s (some ((s.get ⟨i, hi⟩).id)) raw)[i]? =
      some ⟨(s.get ⟨i, hi⟩).id, jsTrim raw, (s.get ⟨i, hi⟩).completed⟩ ∧
    ∀ j, j ≠ i → (editSaveTodos s (some ((s.get ⟨i, hi⟩).id)) raw)[j]? = s[j]? := by
  rw [editSaveTodos_of_ne _ _ _ hraw]
  refine ⟨by simp, ?_, ?_⟩
  · have hm : s[i] = s.get ⟨i, hi⟩ := (List.get_eq_getElem s ⟨i, hi⟩).symm
    rw [List.getElem?_map, List.getElem?_eq_getElem hi]
    have hval : (if some s[i].id = some ((s.get ⟨i, hi⟩).id) then
        (⟨s[i].id, jsTrim raw, s[i].completed⟩ : Todo) else s[i]) =
        ⟨(s.get ⟨i, hi⟩).id, jsTrim raw, (s.get ⟨i, hi⟩).completed⟩ := by
      rw [if_pos (by rw [hm]), hm]
    exact congrArg some hval
  · intro j hj
    rw [List.getElem?_map]
    by_cases hjl : j < s.length
    · rw [List.getElem?_eq_getElem hjl]
      have hne : (s.get ⟨j, hjl⟩).id ≠ (s.get ⟨i, hi⟩).id :=
        nodup_ids_get_ne s hnd hjl hi hj
      have hm : s[j] = s.get ⟨j, hjl⟩ := (List.get_eq_getElem s ⟨j, hjl⟩).symm
      have hval : (if some s[j].id = some ((s.get ⟨i, hi⟩).id) then
          (⟨s[j].id, jsTrim raw, s[j].completed⟩ : Todo) else s[j]) = s[j] := by
        rw [if_neg]
        intro hc
        exact (by rw [hm] at hc; exact hne (Option.some_injective _ hc))
      exact congrArg some hval
    · rw [List.getElem?_eq_none (Nat.le_of_not_lt hjl)]
      rfl

theorem edit_replaces_witness :
    (editSaveTodos [⟨1, "a", false⟩, ⟨2, "b", true⟩] (some 2) "  New  ")[1]? =
      some ⟨2, "New", true⟩ ∧
    (editSaveTodos [⟨1, "a", false⟩, ⟨2, "b", true⟩] (some 2) "  New  ")[0]? =
      some ⟨1, "a", false⟩ := by
  have h := edit_replaces_title_in_place [⟨1, "a", false⟩, ⟨2, "b", true⟩] 1
    (by decide) "  New  " (by decide) (by decide)
  exact ⟨h.2.1, h.2.2 0 (by decide)⟩

lemma delete_split (l1 l2 : List Todo) (a : Todo)
    (h1 : ∀ x ∈ l1, x.id ≠ a.id) (h2 : ∀ x ∈ l2, x.id ≠ a.id) :
    deleteTodo (l1 ++ a :: l2) a.id = l1 ++ l2 := by
  simp only [deleteTodo, List.filter_append, List.filter_cons, bne_self_eq_false,
    Bool.false_eq_true, if_false]
  rw [List.filter_eq_self.mpr fun x hx => by simp [h1 x hx],
    List.filter_eq_self.mpr fun x hx => by simp [h2 x hx]]

/-- Claim C4: deleting the id of a stored record `X` from a store
`l1 ++ X :: l2` with pairwise distinct ids removes exactly that record —
the result is `l1 ++ l2`, so every other record survives with relative
order preserved — and the length drops by exactly one. -/
theorem delete_removes_exactly_one (l1 l2 : List Todo) (X : Todo)
    (hnd : ((l1 ++ X :: l2).map Todo.id).Nodup) :
    deleteTodo (l1 ++ X :: l2) X.id = l1 ++ l2 ∧
    (deleteTodo (l1 ++ X :: l2) X.id).length + 1 = (l1 ++ X :: l2).length := by
  obtain ⟨h1, h2⟩ := nodup_split_ne l1 l2 X hnd
  have hd := delete_split l1 l2 X h1 h2
  refine ⟨hd, ?_⟩
  rw [hd]
  simp
  omega

theorem delete_removes_witness :
    deleteTodo [⟨1, "a", false⟩, ⟨2, "b", true⟩] 1 = [⟨2, "b", true⟩] ∧
    (deleteTodo [⟨1, "a", false⟩, ⟨2, "b", true⟩] 1).length + 1 = 2 :=
  delete_removes_exactly_one [] [⟨2, "b", true⟩] ⟨1, "a", false⟩ (by decide)

lemma toggleTodo_map_id (s : List Todo) (tid : Nat) :
    (toggleTodo s tid).map Todo.id = s.map Todo.id := by
  rw [toggleTodo, List.map_map]
  exact List.map_congr_left fun a _ => by by_cases h : a.id = tid <;> simp [h]

lemma editSaveTodos_map_id (s : List Todo) (eid : Option Nat) (raw : String) :
    (editSaveTodos s eid raw).map Todo.id = s.map Todo.id := by
  by_cases htrim : jsTrim raw = ""
  · simp [editSaveTodos, htrim]
  · rw [editSaveTodos_of_ne _ _ _ htrim, List.map_map]
    exact List.map_congr_left fun a _ => by by_cases h : some a.id = eid <;> simp [h]

/-- Counterexample to claim C5 as stated: ids come from `Date.now()`, so
two adds inside the same millisecond (here both observe `Date.now() = 5`)
store two records with the same id — uniqueness is not guaranteed by the
code itself. -/
theorem id_collision_counterexample :
    ¬ (((addTodo (addTodo [] 5 "a") 5 "b").map Todo.id).Nodup) := by decide

/-- Claim C5 (amended): provided the id generated for an add differs from
every id already stored — which `Date.now()` only guarantees when no two
adds fall in the same millisecond — pairwise uniqueness of the stored ids
is preserved by add, toggle, edit and delete. -/
theorem ids_nodup_preserved (s : List Todo) (now tid did : Nat)
    (eid : Option Nat) (raw ev : String) (hnd : (s.map Todo.id).Nodup)
    (hfresh : now ∉ s.map Todo.id) :
    ((addTodo s now raw).map Todo.id).Nodup ∧
    ((toggleTodo s tid).map Todo.id).Nodup ∧
    ((editSaveTodos s eid ev).map Todo.id).Nodup ∧
    ((deleteTodo s did).map Todo.id).Nodup := by
  refine ⟨?_, ?_, ?_, ?_⟩
  · by_cases htrim : jsTrim raw = ""
    · simpa [addTodo, htrim] using hnd
    · rw [addTodo_of_ne _ _ _ htrim, List.map_append, List.nodup_append]
      exact ⟨hnd, by simp, fun a ha => by simp; rintro rfl; exact hfresh ha⟩
  · rw [toggleTodo_map_id]
    exact hnd
  · rw [editSaveTodos_map_id]
    exact hnd
  · exact hnd.sublist ((List.filter_sublist _).map _)

theorem ids_nodup_witness :
    ((addTodo [⟨1, "a", false⟩] 2 "b").map Todo.id).Nodup ∧
    ((toggleTodo [⟨1, "a", false⟩] 1).map Todo.id).Nodup ∧
    ((editSaveTodos [⟨1, "a", false⟩] (some 1) "c").map Todo.id).Nodup ∧
    ((deleteTodo [⟨1, "a", false⟩] 1).map Todo.id).Nodup :=
  ids_nodup_preserved [⟨1, "a", false⟩] 2 1 1 (some 1) "b" "c"
    (by decide) (by decide)

/-- Counterexample to claim C6 as stated: a save submit whose provisional
text trims to the empty string hits the early return of `handleEditSave`,
which leaves `editId` set — after this reachable save submit the
application is still in edit mode. -/
theorem editSave_empty_keeps_editing :
    ([Event.inputChange "A", Event.addSubmit 1, Event.startEdit 1 "A",
      Event.editChange "  ", Event.editSave].foldl step initState).editId =
      some 1 := by decide

/-- Claim C6 (amended): on a save submit, if the provisional text trims to
a non-empty string the session commits `edit(editId, editValue)` to the
store and returns to Idle (`editId = none`, `editValue = ""`); if it trims
to the empty string the whole state, including the edit session, is left
unchanged. -/
theorem editSave_session_transition (st : AppState) :
    (jsTrim st.editValue ≠ "" →
      (step st Event.editSave).editId = none ∧
      (step st Event.editSave).editValue = "" ∧
      (step st Event.editSave).todos =
        editSaveTodos st.todos st.editId st.editValue) ∧
    (jsTrim st.editValue = "" → step st Event.editSave = st) := by
  constructor
  · intro h
    simp [step, h, editSaveTodos_of_ne _ _ _ h]
  · intro h
    simp [step, h]

theorem editSave_session_witness :
    (step ⟨[⟨1, "A", false⟩], "", some 1, "B"⟩ Event.editSave).editId = none ∧
    (step ⟨[⟨1, "A", false⟩], "", some 1, "B"⟩ Event.editSave).editValue = "" ∧
    (step ⟨[⟨1, "A", false⟩], "", some 1, "B"⟩ Event.editSave).todos =
      editSaveTodos [⟨1, "A", false⟩] (some 1) "B" :=
  (editSave_session_transition ⟨[⟨1, "A", false⟩], "", some 1, "B"⟩).1 (by decide)

lemma reachable_inv (st : AppState) (h : Reachable st) :
    (∀ t ∈ st.todos, t.title.length ≤ 80) ∧ st.input.length ≤ 80 ∧
      st.editValue.length ≤ 80 := by
  induction h with
  | init => exact ⟨by simp [initState], by simp [initState], by simp [initState]⟩
  | next st e hr hok ih =>
      obtain ⟨ht, hin, hev⟩ := ih
      cases e with
      | inputChange s => exact ⟨ht, hok, hev⟩
      | addSubmit now =>
          by_cases htrim : jsTrim st.input = ""
          · simpa [step, htrim] using ⟨ht, hin, hev⟩
          · refine ⟨?_, ?_, ?_⟩
            · intro t htm
              simp only [step, htrim, if_false, List.mem_append,
                List.mem_singleton] at htm
              rcases htm with htm | htm
              · exact ht t htm
              · rw [htm]
                exact le_trans (jsTrim_length_le _) hin
            · simp [step, htrim]
            · simpa [step, htrim] using hev
      | toggle id =>
          refine ⟨?_, hin, hev⟩
          intro t htm
          simp only [step, toggleTodo, List.mem_map] at htm
          obtain ⟨a, ha, hfa⟩ := htm
          rw [← hfa]
          by_cases hc : a.id = id
          · rw [if_pos hc]
            exact ht a ha
          · rw [if_neg hc]
            exact ht a ha
      | startEdit id title =>
          have hok2 : ∃ t, t ∈ st.todos ∧ t.id = id ∧ t.title = title := hok
          obtain ⟨t, htm, _, htt⟩ := hok2
          refine ⟨ht, hin, ?_⟩
          show title.length ≤ 80
          rw [← htt]
          exact ht t htm
      | editChange s => exact ⟨ht, hin, hok⟩
      | editSave =>
          by_cases htrim : jsTrim st.editValue = ""
          · simpa [step, htrim] using ⟨ht, hin, hev⟩
          · refine ⟨?_, ?_, ?_⟩
            · intro t htm
              simp only [step, htrim, if_false, List.mem_map] at htm
              obtain ⟨a, ha, hfa⟩ := htm
              rw [← hfa]
              by_cases hc : some a.id = st.editId
              · rw [if_pos hc]
                exact le_trans (jsTrim_length_le _) hev
              · rw [if_neg hc]
                exact ht a ha
            · simpa [step, htrim] using hin
            · simp [step, htrim]
      | editCancel => exact ⟨ht, hin, by simp [step]⟩
      | deleteEv id =>
          refine ⟨?_, hin, hev⟩
          intro t htm
          exact ht t (List.mem_of_mem_filter htm)

/-- Claim C7: in every state the application can reach through its page —
whose two text inputs enforce `maxLength={80}` — every stored todo's title
has at most 80 characters; no sequence of add and edit operations can
exceed the bound, since trimming never lengthens a string. -/
theorem stored_titles_bounded (st : AppState) (h : Reachable st) :
    ∀ t ∈ st.todos, t.title.length ≤ 80 :=
  (reachable_inv st h).1

theorem stored_titles_bounded_witness :
    (⟨1, "Buy milk", false⟩ : Todo).title.length ≤ 80 :=
  stored_titles_bounded
    (step (step initState (Event.inputChange "Buy milk")) (Event.addSubmit 1))
    (Reachable.next _ (Event.addSubmit 1)
      (Reachable.next initState (Event.inputChange "Buy milk") Reachable.init
        (by show ("Buy milk").length ≤ 80
            decide))
      (by exact trivial))
    ⟨1, "Buy milk", false⟩ (by decide)
